import Mathlib

/-!
# tw-daily-reporter: the daily summary aggregation

A shallow embedding of `cmd/twdr/app/main.go`: the aggregation and ranking of
`GetTodaySummary` (lines 175-208) and the message built by `app.Action`
(lines 64-78), with theorems about them.

Modelling decisions.

* A finite `float64` is the rational it denotes, and every float operation
  rounds its exact result to the nearest `float64`, ties to even
  (`roundToFloat`), with gradual underflow and overflow to an infinity
  (`Float64.ofRat`).  The sign of zero is not kept: no operation of the code
  tells the two zeros apart.  NaN is not a value of the model: the only float
  operations of the code with an operand that can be infinite are the two
  `+=` of the loop, whose right operand is a decoded JSON number, which is
  finite; an infinity plus a finite number is that infinity.
* `uint64` / `int64` values are `Nat` / `Int`; wrap-around of the one integer
  multiplication of the code is explicit (`wrapInt64`).
* What the Go language leaves open is a parameter, `GoRuntime`: the order in
  which `range` visits a map, the permutation `sort.Sort` arrives at (it is
  not guaranteed to be stable), and the result of converting a float that the
  integer type cannot represent.  Theorems quantify over every `GoRuntime`
  that keeps what the language promises (`GoRuntime.Conforms`).
* The HTTP fetch and JSON decoding (lines 148-173) are the argument of
  `GetTodaySummary`: either an error or the decoded `DurationResponse`.
-/

namespace TwDailyReporter

/-! ## The type `float64` -/

/-- The number of binary digits of `n`, by halving; `fuel` bounds the steps. -/
def bitLenFuel : Nat → Nat → Nat
  | 0, _ => 0
  | fuel + 1, n => if n = 0 then 0 else bitLenFuel fuel (n / 2) + 1

/-- The number of binary digits of `n` (0 for 0). -/
def bitLen (n : Nat) : Nat := bitLenFuel n n

/-- The power of two with an integer exponent. -/
def pow2 (e : Int) : ℚ :=
  if 0 ≤ e then ((2 ^ e.toNat : ℕ) : ℚ) else 1 / ((2 ^ (-e).toNat : ℕ) : ℚ)

/-- The binary exponent of a rational other than zero: the `e` with
`2^e ≤ |x| < 2^(e+1)`. -/
def ilog2 (x : ℚ) : Int :=
  let d : Int := (bitLen x.num.natAbs : Int) - (bitLen x.den : Int)
  if pow2 d ≤ |x| then d else d - 1

/-- Rounding to the nearest integer, a tie to the even one. -/
def roundHalfEven (y : ℚ) : Int :=
  if y - ⌊y⌋ < 1 / 2 then ⌊y⌋
  else if 1 / 2 < y - ⌊y⌋ then ⌊y⌋ + 1
  else if ⌊y⌋ % 2 = 0 then ⌊y⌋ else ⌊y⌋ + 1

/-- The exponent of the unit in the last place of a `float64` near `x`: 52
below the binary exponent of `x`, which is at least -1022 (subnormals). -/
def ulpExponent (x : ℚ) : Int := max (ilog2 x) (-1022) - 52

/-- Rounding to 53 significant binary digits, to nearest, ties to even: the
`float64` nearest to `x` when the exponent range has no upper end. -/
def roundToFloat (x : ℚ) : ℚ :=
  (roundHalfEven (x / pow2 (ulpExponent x)) : ℚ) * pow2 (ulpExponent x)

/-- The largest finite `float64`, `(2^53 - 1) * 2^971`. -/
def maxFloat64 : ℚ := (2 ^ 53 - 1) * pow2 971

/-- A `float64` other than NaN: a finite one, given by its value, or an
infinity. -/
inductive Float64 where
  | finite (value : ℚ)
  | inf (negative : Bool)
  deriving DecidableEq

/-- The `float64` that an exact result rounds to. -/
def Float64.ofRat (x : ℚ) : Float64 :=
  if maxFloat64 < roundToFloat x then .inf false
  else if roundToFloat x < -maxFloat64 then .inf true
  else .finite (roundToFloat x)

/-- The sum `a + d` of a `float64` and a finite one of value `d` (the `+=` of
the loop). -/
def Float64.addFinite (a : Float64) (d : ℚ) : Float64 :=
  match a with
  | .finite v => Float64.ofRat (v + d)
  | .inf negative => .inf negative

/-- The comparison `a < b` of two `float64`. -/
def Float64.lt : Float64 → Float64 → Bool
  | .finite a, .finite b => decide (a < b)
  | .finite _, .inf negative => !negative
  | .inf negative, .finite _ => negative
  | .inf negative, .inf negative' => negative && !negative'

/-- The comparison `a <= b`: the order is total, so it is `!(b < a)`. -/
def Float64.le (a b : Float64) : Prop := Float64.lt b a = false

/-- The `float64` that decoding gives for a decimal number within range: the
nearest one. -/
def decimal (q : ℚ) : ℚ := roundToFloat q

/-! ## Data model (lines 115-141) -/

/-- One record of the tracking service's answer (`DurationResponseData`).
The two numbers are decoded from JSON, so they are finite: they are given by
their values. -/
structure DurationResponseData where
  Duration : ℚ
  Language : String
  Project : String
  Time : ℚ
  deriving DecidableEq

/-- The decoded answer of the tracking service (`DurationResponse`); the
timestamps are kept as optional nanosecond counts, they are never read. -/
structure DurationResponse where
  Start : Option Int
  End : Option Int
  Timezone : Option String
  Data : List DurationResponseData

/-- The result of the aggregation (`TodaySummary`); the two `uint64` fields
are naturals. -/
structure TodaySummary where
  TotalHour : Nat
  TotalMin : Nat
  TopLangs : List String
  deriving DecidableEq

/-- A language with its summed duration (`Pair`). -/
structure Pair where
  Key : String
  Value : Float64
  deriving DecidableEq

instance : Inhabited Pair := ⟨⟨"", .finite 0⟩⟩

/-- The slice type `PairList`. -/
abbrev PairList := List Pair

/-- The method `func (p PairList) Len() int`. -/
def PairList.Len (p : PairList) : Nat := p.length

/-- The method `func (p PairList) Less(i, j int) bool { return p[i].Value < p[j].Value }`.
The indices are in range wherever `sort` calls it. -/
def PairList.Less (p : PairList) (i j : Nat) : Bool :=
  Float64.lt (p.getD i default).Value (p.getD j default).Value

/-- The method `func (p PairList) Swap(i, j int) { p[i], p[j] = p[j], p[i] }`. -/
def PairList.Swap (p : PairList) (i j : Nat) : PairList :=
  (p.set i (p.getD j default)).set j (p.getD i default)

/-- The `Less` of `sort.Reverse(p)`: `r.Interface.Less(j, i)`. -/
def reverseLess (p : PairList) (i j : Nat) : Bool := PairList.Less p j i

/-! ## Go maps -/

/-- A `map[string]float64`: its entries, each key at most once. -/
abbrev GoMap := List (String × Float64)

/-- The comma-ok read `v, ok := m[k]`. -/
def mapLookup : GoMap → String → Option Float64
  | [], _ => none
  | (k', v) :: rest, k => if k' = k then some v else mapLookup rest k

/-- The read `m[k]`: the zero value when the key is absent. -/
def mapIndex (m : GoMap) (k : String) : Float64 := (mapLookup m k).getD (.finite 0)

/-- The assignment `m[k] = v`. -/
def mapAssign : GoMap → String → Float64 → GoMap
  | [], k, v => [(k, v)]
  | (k', v') :: rest, k, v =>
    if k' = k then (k', v) :: rest else (k', v') :: mapAssign rest k v

/-! ## What the language leaves open -/

/-- The choices Go leaves to the implementation. -/
structure GoRuntime where
  /-- The order in which `for k, v := range m` visits the entries. -/
  mapRange : GoMap → GoMap
  /-- The slice after `sort.Sort(sort.Reverse(p))`. -/
  sortReverse : PairList → PairList
  /-- The result of `int64(x)` when the truncated `x` is not an `int64`. -/
  int64OutOfRange : Float64 → Int
  /-- The result of `uint64(x)` when the truncated `x` is not a `uint64`. -/
  uint64OutOfRange : Float64 → Nat

/-- What the language and the package `sort` promise of these choices: `range`
visits every entry of the map once; `sort.Sort` permutes the slice, and
leaves it sorted as `sort.IsSorted` checks it (no element is `Less` than its
predecessor). -/
structure GoRuntime.Conforms (rt : GoRuntime) : Prop where
  mapRange_perm : ∀ m, (rt.mapRange m).Perm m
  sortReverse_perm : ∀ p, (rt.sortReverse p).Perm p
  sortReverse_sorted : ∀ p i, i + 1 < (rt.sortReverse p).length →
    reverseLess (rt.sortReverse p) (i + 1) i = false

/-! ## Numeric conversions and `time.Duration` -/

/-- Two's complement wrap-around of an `int64` result. -/
def wrapInt64 (x : Int) : Int := (x + 2 ^ 63) % 2 ^ 64 - 2 ^ 63

/-- Conversion of a float to an integer discards the fraction (truncation
towards zero). -/
def truncQ (x : ℚ) : Int := if 0 ≤ x then ⌊x⌋ else ⌈x⌉

/-- The conversion `int64(x)` (as in `time.Duration(durationSeconds)`). -/
def toInt64 (rt : GoRuntime) (x : Float64) : Int :=
  match x with
  | .finite v =>
    if -(2 ^ 63) ≤ truncQ v ∧ truncQ v < 2 ^ 63 then truncQ v
    else wrapInt64 (rt.int64OutOfRange x)
  | .inf _ => wrapInt64 (rt.int64OutOfRange x)

/-- The conversion `uint64(x)`. -/
def toUint64 (rt : GoRuntime) (x : Float64) : Nat :=
  match x with
  | .finite v =>
    if 0 ≤ truncQ v ∧ truncQ v < 2 ^ 64 then (truncQ v).toNat
    else rt.uint64OutOfRange x % 2 ^ 64
  | .inf _ => rt.uint64OutOfRange x % 2 ^ 64

/-- The constant `time.Second`, in nanoseconds. -/
def Second : Int := 1000000000

/-- The constant `time.Minute`. -/
def Minute : Int := 60 * Second

/-- The constant `time.Hour`. -/
def Hour : Int := 60 * Minute

/-- The method `func (d Duration) Hours() float64`: `hour := d / Hour; nsec := d % Hour;
return float64(hour) + float64(nsec)/(60*60*1e9)`.  Each conversion, the
division and the addition round; none can overflow, the operands being below
`2^63` in magnitude. -/
def Duration.Hours (d : Int) : Float64 :=
  .finite (roundToFloat (roundToFloat (Int.tdiv d Hour : Int) +
    roundToFloat (roundToFloat (Int.tmod d Hour : Int) / 3600000000000)))

/-- The method `func (d Duration) Minutes() float64`: `min := d / Minute; nsec := d % Minute;
return float64(min) + float64(nsec)/(60*1e9)`, rounded as `Hours` is. -/
def Duration.Minutes (d : Int) : Float64 :=
  .finite (roundToFloat (roundToFloat (Int.tdiv d Minute : Int) +
    roundToFloat (roundToFloat (Int.tmod d Minute : Int) / 60000000000)))

/-! ## `GetTodaySummary` (lines 147-209) -/

/-- The two accumulators of the aggregation loop. -/
structure AggState where
  durationSeconds : Float64
  durationMap : GoMap
  deriving DecidableEq

/-- One iteration of the loop of lines 177-186. -/
def aggStep (st : AggState) (data : DurationResponseData) : AggState :=
  if data.Language = "Other" then st
  else
    let m1 := if (mapLookup st.durationMap data.Language).isSome then st.durationMap
              else mapAssign st.durationMap data.Language (.finite 0)
    let m2 := mapAssign m1 data.Language
      (Float64.addFinite (mapIndex m1 data.Language) data.Duration)
    { durationSeconds := Float64.addFinite st.durationSeconds data.Duration,
      durationMap := m2 }

/-- The aggregation loop, lines 175-186. -/
def aggregate (data : List DurationResponseData) : AggState :=
  data.foldl aggStep { durationSeconds := .finite 0, durationMap := [] }

/-- Lines 188-192: the pair list built from the map, then sorted. -/
def rankedPairs (rt : GoRuntime) (durationMap : GoMap) : PairList :=
  let pairList : PairList := (rt.mapRange durationMap).map (fun kv => Pair.mk kv.1 kv.2)
  rt.sortReverse pairList

/-- Lines 175-208: the summary computed from the decoded records. -/
def summarize (rt : GoRuntime) (data : List DurationResponseData) : TodaySummary :=
  let st := aggregate data
  let pairList := rankedPairs rt st.durationMap
  let topLangs := pairList.map Pair.Key
  let duration := wrapInt64 (toInt64 rt st.durationSeconds * Second)
  let hours := toUint64 rt (Duration.Hours duration)
  let minutes := toUint64 rt (Duration.Minutes duration) % 60
  { TopLangs := topLangs, TotalHour := hours, TotalMin := minutes }

/-- The function `GetTodaySummary`: `fetched` is the outcome of lines 148-173 (request,
read, JSON decoding), whose errors are returned unchanged. -/
def GetTodaySummary (rt : GoRuntime) (fetched : Except String DurationResponse) :
    Except String TodaySummary :=
  match fetched with
  | .error err => .error err
  | .ok durationResponse => .ok (summarize rt durationResponse.Data)

/-! ## `app.Action` (lines 64-78) -/

/-- How a run of `app.Action` ends. -/
inductive ActionResult where
  | done
  | failed (err : String)
  | panicked (msg : String)
  deriving DecidableEq

/-- The slice expression `s[:high]` of a slice whose capacity equals its
length, as `topLangs` has (made with capacity `len(pairList)` and appended to
`len(pairList)` times): out of range when `high` exceeds the capacity. -/
def sliceTo (s : List String) (high : Nat) : Option (List String) :=
  if high ≤ s.length then some (s.take high) else none

/-- The text of the post, line 70, given the three languages. -/
def tweetText (langs : List String) (summary : TodaySummary) : String :=
  "【自動投稿】\n今日は" ++ "、".intercalate langs ++ "のコードを" ++
    Nat.repr summary.TotalHour ++ "時間" ++ Nat.repr summary.TotalMin ++ "分書きました！"

/-- The function assigned to `app.Action`; `postTweet` is `PostTweet` applied to
the context. -/
def Action (rt : GoRuntime) (fetched : Except String DurationResponse)
    (postTweet : String → Except String Unit) : ActionResult :=
  match GetTodaySummary rt fetched with
  | .error err => .failed err
  | .ok summary =>
    match sliceTo summary.TopLangs 3 with
    | none => .panicked "slice bounds out of range"
    | some langs =>
      match postTweet (tweetText langs summary) with
      | .error err => .failed err
      | .ok _ => .done

/-! ## The algorithm of `sort` for short slices -/

/-- The inner loop of `insertionSort` under `sort.Reverse`: the new element
`x` is swapped leftwards while its left neighbour `y` has `y.Value < x.Value`.
The sorted prefix is read from right to left. -/
def sinkLeft (x : Pair) : List Pair → List Pair
  | [] => [x]
  | y :: ys => if Float64.lt y.Value x.Value then y :: sinkLeft x ys else x :: y :: ys

/-- The outer loop of `insertionSort`: `done` is the sorted prefix, read from
right to left. -/
def insertionSortFrom : List Pair → List Pair → List Pair
  | done, [] => done.reverse
  | done, x :: rest => insertionSortFrom (sinkLeft x done) rest

/-- The function `insertionSort` of package `sort` (what `sort.Sort` runs on
slices of fewer than 12 elements), on `sort.Reverse(p)`. -/
def insertionSort (p : PairList) : PairList := insertionSortFrom [] p

/-- An implementation of what the language leaves open: `range` visits the
map in the order `order`, `sort.Sort` is its insertion sort, and a float out
of the range of the integer type converts to the lowest `int64`, to the
`uint64` of the same bits. -/
def insertionRuntime (order : GoMap → GoMap) : GoRuntime where
  mapRange := order
  sortReverse := insertionSort
  int64OutOfRange := fun _ => -(2 ^ 63)
  uint64OutOfRange := fun _ => 2 ^ 63

/-- The map is visited in the order of first assignment. -/
def insertionOrderRuntime : GoRuntime := insertionRuntime id

/-- The map is visited from the entry assigned last to the one assigned first. -/
def reverseOrderRuntime : GoRuntime := insertionRuntime List.reverse

/-! ## Example inputs -/

/-- The example of the specification: Go twice, Python, and a larger "Other". -/
def exampleObservations : List DurationResponseData :=
  [⟨3600, "Go", "", 0⟩, ⟨1800, "Go", "", 0⟩, ⟨900, "Python", "", 0⟩, ⟨5000, "Other", "", 0⟩]

/-- Two languages of equal summed duration, Go observed first. -/
def tiedObservations : List DurationResponseData :=
  [⟨1, "Go", "", 0⟩, ⟨1, "Python", "", 0⟩]

/-- A day on which a single language was tracked. -/
def oneLanguageObservations : List DurationResponseData :=
  [⟨3600, "Go", "", 0⟩]

/-- A day on which only "Other" was tracked. -/
def onlyOtherObservations : List DurationResponseData :=
  [⟨5000, "Other", "", 0⟩, ⟨20, "Other", "", 0⟩]

/-- Ten records of 0.1 seconds of Go, then one second of Python. -/
def tenTenths : List DurationResponseData :=
  List.replicate 10 ⟨decimal (1 / 10), "Go", "", 0⟩ ++ [⟨1, "Python", "", 0⟩]

/-- The records 3599.7 and 0.3, both of Go. -/
def roundedToTheHour : List DurationResponseData :=
  [⟨decimal (35997 / 10), "Go", "", 0⟩, ⟨decimal (3 / 10), "Go", "", 0⟩]

/-- A response with the given records. -/
def responseOf (data : List DurationResponseData) : DurationResponse :=
  { Start := none, End := none, Timezone := none, Data := data }

/-! ## The quantities the claims speak of -/

/-- The sum, in exact arithmetic, of the durations of the observations of one
language. -/
def langTotal (obs : List DurationResponseData) (lang : String) : ℚ :=
  ((obs.filter (fun d => d.Language = lang)).map (fun d => d.Duration)).sum

/-- The sum, in exact arithmetic, of the durations of the observations whose
language is not "Other". -/
def grandTotal (obs : List DurationResponseData) : ℚ :=
  ((obs.filter (fun d => d.Language ≠ "Other")).map (fun d => d.Duration)).sum

/-- The durations of the observations of one language added up as `float64`,
from zero, in the order of the input, each sum rounded. -/
def floatTotal (obs : List DurationResponseData) (lang : String) : Float64 :=
  ((obs.filter (fun d => d.Language = lang)).map (fun d => d.Duration)).foldl
    Float64.addFinite (.finite 0)

/-- The durations of the observations whose language is not "Other" added up
as `float64`, from zero, in the order of the input, each sum rounded. -/
def floatGrandTotal (obs : List DurationResponseData) : Float64 :=
  ((obs.filter (fun d => d.Language ≠ "Other")).map (fun d => d.Duration)).foldl
    Float64.addFinite (.finite 0)

/-- The languages other than "Other" of the observations, with repetitions. -/
def observedLangs (obs : List DurationResponseData) : List String :=
  (obs.map (fun d => d.Language)).filter (fun l => l ≠ "Other")

/-- The order of a ranking: an earlier pair has no smaller value. -/
def Ranked (a b : Pair) : Prop := Float64.lt a.Value b.Value = false

/-- The ranking of ties by first observation: of two distinct observed
languages with equal summed durations, the one observed first comes first in
`TopLangs`. -/
def StableRanking (rt : GoRuntime) (obs : List DurationResponseData) : Prop :=
  ∀ a b : String, a ≠ b → a ∈ observedLangs obs → b ∈ observedLangs obs →
    langTotal obs a = langTotal obs b →
    (observedLangs obs).indexOf a < (observedLangs obs).indexOf b →
    (summarize rt obs).TopLangs.indexOf a < (summarize rt obs).TopLangs.indexOf b


/-! ## Rounding to `float64` -/

theorem pow2_eq (e : Int) : pow2 e = (2 : ℚ) ^ e := by
  unfold pow2
  by_cases h : 0 ≤ e
  · rw [if_pos h]
    obtain ⟨n, rfl⟩ := Int.eq_ofNat_of_zero_le h
    simp
  · rw [if_neg h]
    have hneg : 0 ≤ -e := by omega
    obtain ⟨n, hn⟩ := Int.eq_ofNat_of_zero_le hneg
    have he : e = -(n : Int) := by omega
    subst he
    simp

theorem pow2_pos (e : Int) : 0 < pow2 e := by
  rw [pow2_eq]
  positivity

theorem pow2_add (a b : Int) : pow2 (a + b) = pow2 a * pow2 b := by
  rw [pow2_eq, pow2_eq, pow2_eq, zpow_add₀ (by norm_num)]

theorem pow2_natCast (n : Nat) : pow2 (n : Int) = ((2 ^ n : ℕ) : ℚ) := by
  rw [pow2_eq]
  simp

theorem pow2_le_pow2 {a b : Int} (h : a ≤ b) : pow2 a ≤ pow2 b := by
  rw [pow2_eq, pow2_eq]
  exact zpow_le_zpow_right₀ (by norm_num) h

theorem pow2_lt_pow2_iff {a b : Int} : pow2 a < pow2 b ↔ a < b := by
  rw [pow2_eq, pow2_eq]
  exact zpow_lt_zpow_iff_right₀ (by norm_num)

theorem bitLenFuel_zero (fuel : Nat) : bitLenFuel fuel 0 = 0 := by
  cases fuel <;> simp [bitLenFuel]

theorem bitLenFuel_spec (fuel n : Nat) (hfuel : n ≤ fuel) (hn : n ≠ 0) :
    2 ^ bitLenFuel fuel n ≤ 2 * n ∧ n < 2 ^ bitLenFuel fuel n := by
  induction fuel generalizing n with
  | zero => omega
  | succ f ih =>
    simp only [bitLenFuel, hn, if_false]
    by_cases h2 : n / 2 = 0
    · have h1 : n = 1 := by omega
      subst h1
      simp [bitLenFuel_zero]
    · obtain ⟨hlo, hhi⟩ := ih (n / 2) (by omega) h2
      rw [pow_succ]
      constructor <;> omega

theorem bitLen_spec (n : Nat) (hn : n ≠ 0) : 2 ^ bitLen n ≤ 2 * n ∧ n < 2 ^ bitLen n :=
  bitLenFuel_spec n n (Nat.le_refl n) hn

theorem abs_eq_natAbs_div_den (x : ℚ) : |x| = (x.num.natAbs : ℚ) / (x.den : ℚ) := by
  have h : (x.num : ℚ) / (x.den : ℚ) = x := Rat.num_div_den x
  have hden : (0 : ℚ) < (x.den : ℚ) := by exact_mod_cast x.den_pos
  conv_lhs => rw [← h]
  rw [abs_div, abs_of_pos hden, Nat.cast_natAbs, Int.cast_abs]

/-- The binary exponent brackets the number. -/
theorem ilog2_spec (x : ℚ) (hx : x ≠ 0) :
    pow2 (ilog2 x) ≤ |x| ∧ |x| < pow2 (ilog2 x + 1) := by
  have hp : x.num.natAbs ≠ 0 := by
    simpa [Int.natAbs_eq_zero] using hx
  have hq : x.den ≠ 0 := x.den_nz
  obtain ⟨hpl, hph⟩ := bitLen_spec _ hp
  obtain ⟨hql, hqh⟩ := bitLen_spec _ hq
  have hpl' : ((2 : ℚ) ^ bitLen x.num.natAbs) ≤ 2 * (x.num.natAbs : ℚ) := by exact_mod_cast hpl
  have hph' : (x.num.natAbs : ℚ) < (2 : ℚ) ^ bitLen x.num.natAbs := by exact_mod_cast hph
  have hql' : ((2 : ℚ) ^ bitLen x.den) ≤ 2 * (x.den : ℚ) := by exact_mod_cast hql
  have hqh' : (x.den : ℚ) < (2 : ℚ) ^ bitLen x.den := by exact_mod_cast hqh
  have hppos : (0 : ℚ) < (x.num.natAbs : ℚ) := by
    exact_mod_cast Nat.pos_of_ne_zero hp
  have hqpos : (0 : ℚ) < (x.den : ℚ) := by exact_mod_cast x.den_pos
  have hApos : (0 : ℚ) < (2 : ℚ) ^ bitLen x.num.natAbs := by positivity
  have hBpos : (0 : ℚ) < (2 : ℚ) ^ bitLen x.den := by positivity
  have hd : pow2 ((bitLen x.num.natAbs : Int) - (bitLen x.den : Int)) =
      (2 : ℚ) ^ bitLen x.num.natAbs / (2 : ℚ) ^ bitLen x.den := by
    rw [pow2_eq, zpow_sub₀ (by norm_num), zpow_natCast, zpow_natCast]
  have habs := abs_eq_natAbs_div_den x
  unfold ilog2
  simp only []
  by_cases htest : pow2 ((bitLen x.num.natAbs : Int) - (bitLen x.den : Int)) ≤ |x|
  · rw [if_pos htest]
    refine ⟨htest, ?_⟩
    rw [pow2_add, hd, habs, div_mul_eq_mul_div, div_lt_div_iff₀ hqpos hBpos]
    have h1 : pow2 1 = 2 := by rw [pow2_eq]; norm_num
    rw [h1]
    nlinarith
  · rw [if_neg htest]
    have hlt : |x| < pow2 ((bitLen x.num.natAbs : Int) - (bitLen x.den : Int)) := not_le.1 htest
    refine ⟨?_, by simpa using hlt⟩
    have hsplit : pow2 ((bitLen x.num.natAbs : Int) - (bitLen x.den : Int) - 1) =
        (2 : ℚ) ^ bitLen x.num.natAbs / (2 : ℚ) ^ bitLen x.den / 2 := by
      rw [sub_eq_add_neg, pow2_add, hd]
      have h1 : pow2 (-1) = 1 / 2 := by rw [pow2_eq]; norm_num
      rw [h1]
      ring
    rw [hsplit, habs, div_div, div_le_div_iff₀ (by positivity) hqpos]
    nlinarith

theorem roundHalfEven_intCast (n : Int) : roundHalfEven (n : ℚ) = n := by
  simp [roundHalfEven]

theorem roundHalfEven_mono {y z : ℚ} (h : y ≤ z) : roundHalfEven y ≤ roundHalfEven z := by
  have hf : ⌊y⌋ ≤ ⌊z⌋ := Int.floor_mono h
  have hy1 := Int.floor_le y
  have hy2 := Int.lt_floor_add_one y
  have hz1 := Int.floor_le z
  have hz2 := Int.lt_floor_add_one z
  rcases lt_or_eq_of_le hf with hlt | heq
  · unfold roundHalfEven
    split_ifs <;> omega
  · unfold roundHalfEven
    rw [← heq]
    split_ifs <;> first | omega | (exfalso; linarith)

theorem roundHalfEven_nonneg {y : ℚ} (h : 0 ≤ y) : 0 ≤ roundHalfEven y := by
  have := roundHalfEven_mono h
  rwa [show roundHalfEven (0 : ℚ) = 0 by simpa using roundHalfEven_intCast 0] at this

theorem roundToFloat_zero : roundToFloat 0 = 0 := by
  simp [roundToFloat, roundHalfEven]

theorem roundToFloat_nonneg {x : ℚ} (h : 0 ≤ x) : 0 ≤ roundToFloat x := by
  unfold roundToFloat
  apply mul_nonneg _ (pow2_pos _).le
  exact_mod_cast roundHalfEven_nonneg (div_nonneg h (pow2_pos _).le)

theorem roundToFloat_le_of_le (x : ℚ) (n : Int)
    (h : x ≤ (n : ℚ) * pow2 (ulpExponent x)) :
    roundToFloat x ≤ (n : ℚ) * pow2 (ulpExponent x) := by
  unfold roundToFloat
  apply mul_le_mul_of_nonneg_right _ (pow2_pos _).le
  have h1 : x / pow2 (ulpExponent x) ≤ (n : ℚ) := (div_le_iff₀ (pow2_pos _)).2 h
  have h2 := roundHalfEven_mono h1
  rw [roundHalfEven_intCast] at h2
  exact_mod_cast h2

theorem le_roundToFloat_of_le (x : ℚ) (n : Int)
    (h : (n : ℚ) * pow2 (ulpExponent x) ≤ x) :
    (n : ℚ) * pow2 (ulpExponent x) ≤ roundToFloat x := by
  unfold roundToFloat
  apply mul_le_mul_of_nonneg_right _ (pow2_pos _).le
  have h1 : (n : ℚ) ≤ x / pow2 (ulpExponent x) := (le_div_iff₀ (pow2_pos _)).2 h
  have h2 := roundHalfEven_mono h1
  rw [roundHalfEven_intCast] at h2
  exact_mod_cast h2

/-- A number of at most 53 significant binary digits, not below the least
subnormal exponent, is a `float64`: rounding keeps it. -/
theorem roundToFloat_dyadic (m k : Int) (hm : |m| < 2 ^ 53) (hk : -1074 ≤ k) :
    roundToFloat ((m : ℚ) * pow2 k) = (m : ℚ) * pow2 k := by
  by_cases hm0 : m = 0
  · subst hm0
    simp [roundToFloat_zero]
  have hx : (m : ℚ) * pow2 k ≠ 0 :=
    mul_ne_zero (by exact_mod_cast hm0) (pow2_pos k).ne'
  obtain ⟨hlo, -⟩ := ilog2_spec _ hx
  have habs : |(m : ℚ) * pow2 k| < pow2 (53 + k) := by
    rw [abs_mul, abs_of_pos (pow2_pos k), pow2_add]
    apply mul_lt_mul_of_pos_right _ (pow2_pos k)
    have h53 : pow2 53 = ((2 ^ 53 : Int) : ℚ) := by rw [pow2_eq]; norm_num
    rw [h53, ← Int.cast_abs]
    exact_mod_cast hm
  have hlog : ilog2 ((m : ℚ) * pow2 k) < 53 + k :=
    pow2_lt_pow2_iff.1 (lt_of_le_of_lt hlo habs)
  have hE : ulpExponent ((m : ℚ) * pow2 k) ≤ k := by
    unfold ulpExponent
    have : max (ilog2 ((m : ℚ) * pow2 k)) (-1022) ≤ k + 52 := max_le (by omega) (by omega)
    omega
  obtain ⟨n, hn⟩ := Int.eq_ofNat_of_zero_le (show 0 ≤ k - ulpExponent ((m : ℚ) * pow2 k) by omega)
  have hk2 : pow2 k = ((2 ^ n : ℕ) : ℚ) * pow2 (ulpExponent ((m : ℚ) * pow2 k)) := by
    rw [← pow2_natCast, ← pow2_add, ← hn]
    congr 1
    ring
  have hdiv : (m : ℚ) * pow2 k / pow2 (ulpExponent ((m : ℚ) * pow2 k)) =
      ((m * (2 ^ n : ℕ) : Int) : ℚ) := by
    rw [div_eq_iff (pow2_pos _).ne']
    conv_lhs => rw [hk2]
    push_cast
    ring
  unfold roundToFloat
  rw [hdiv, roundHalfEven_intCast]
  conv_rhs => rw [hk2]
  push_cast
  ring

/-- An integer below `2^53` in magnitude is a `float64`. -/
theorem roundToFloat_intCast (n : Int) (hn : |n| < 2 ^ 53) :
    roundToFloat (n : ℚ) = (n : ℚ) := by
  have h := roundToFloat_dyadic n 0 hn (by norm_num)
  have h0 : pow2 0 = 1 := by rw [pow2_eq]; norm_num
  rwa [h0, mul_one] at h

/-- Rounding keeps the order of non-negative numbers. -/
theorem roundToFloat_mono_nonneg {x y : ℚ} (hx : 0 ≤ x) (hxy : x ≤ y) :
    roundToFloat x ≤ roundToFloat y := by
  rcases eq_or_lt_of_le hx with rfl | hxpos
  · rw [roundToFloat_zero]
    exact roundToFloat_nonneg hxy
  have hypos : 0 < y := lt_of_lt_of_le hxpos hxy
  obtain ⟨hxlo, hxhi⟩ := ilog2_spec x hxpos.ne'
  obtain ⟨hylo, hyhi⟩ := ilog2_spec y hypos.ne'
  rw [abs_of_pos hxpos] at hxlo hxhi
  rw [abs_of_pos hypos] at hylo hyhi
  have hlog : ilog2 x ≤ ilog2 y := by
    have : ilog2 x < ilog2 y + 1 :=
      pow2_lt_pow2_iff.1 (lt_of_le_of_lt (hxlo.trans hxy) hyhi)
    omega
  by_cases hsame : ulpExponent x = ulpExponent y
  · unfold roundToFloat
    rw [hsame]
    apply mul_le_mul_of_nonneg_right _ (pow2_pos _).le
    exact_mod_cast roundHalfEven_mono (div_le_div_of_nonneg_right hxy (pow2_pos _).le)
  · have hEx : ulpExponent x = max (ilog2 x) (-1022) - 52 := rfl
    have hEy : ulpExponent y = max (ilog2 y) (-1022) - 52 := rfl
    have hmax : max (ilog2 x) (-1022) ≤ max (ilog2 y) (-1022) := max_le_max hlog (le_refl _)
    have hlt : ulpExponent x + 52 < ulpExponent y + 52 := by omega
    have hy_eq : ulpExponent y + 52 = ilog2 y := by
      rcases le_total (ilog2 y) (-1022) with h | h
      · have h1 : max (ilog2 y) (-1022) = -1022 := max_eq_right h
        have h2 : -1022 ≤ max (ilog2 x) (-1022) := le_max_right _ _
        omega
      · have h1 : max (ilog2 y) (-1022) = ilog2 y := max_eq_left h
        omega
    have hx_le : ilog2 x ≤ ulpExponent x + 52 := by
      have := le_max_left (ilog2 x) (-1022)
      omega
    have h53 : pow2 53 = ((2 ^ 53 : Int) : ℚ) := by rw [pow2_eq]; norm_num
    have h52 : pow2 52 = ((2 ^ 52 : Int) : ℚ) := by rw [pow2_eq]; norm_num
    have hup : roundToFloat x ≤ pow2 (ulpExponent x + 53) := by
      have hsplit : pow2 (ulpExponent x + 53) = ((2 ^ 53 : Int) : ℚ) * pow2 (ulpExponent x) := by
        rw [add_comm, pow2_add, h53]
      rw [hsplit]
      apply roundToFloat_le_of_le
      rw [← hsplit]
      exact (hxhi.trans_le (pow2_le_pow2 (by omega))).le
    have hdown : pow2 (ulpExponent y + 52) ≤ roundToFloat y := by
      have hsplit : pow2 (ulpExponent y + 52) = ((2 ^ 52 : Int) : ℚ) * pow2 (ulpExponent y) := by
        rw [add_comm, pow2_add, h52]
      rw [hsplit]
      apply le_roundToFloat_of_le
      rw [← hsplit, hy_eq]
      exact hylo
    exact hup.trans ((pow2_le_pow2 (by omega)).trans hdown)

/-! ## Order and sign of `float64` -/

theorem Float64.lt_trans_false (a b c : Float64) (hab : Float64.lt a b = false)
    (hbc : Float64.lt b c = false) : Float64.lt a c = false := by
  cases a with
  | finite x =>
    cases b with
    | finite y =>
      cases c with
      | finite z =>
        simp only [Float64.lt, decide_eq_false_iff_not, not_lt] at *
        exact le_trans hbc hab
      | inf s => simpa [Float64.lt] using hbc
    | inf s =>
      cases c with
      | finite z => simp_all [Float64.lt]
      | inf t => simp_all [Float64.lt]
  | inf s =>
    cases b with
    | finite y =>
      cases c with
      | finite z => simpa [Float64.lt] using hab
      | inf t => simp_all [Float64.lt]
    | inf t =>
      cases c with
      | finite z => cases s <;> cases t <;> simp_all [Float64.lt]
      | inf r => cases s <;> cases t <;> cases r <;> simp_all [Float64.lt]

theorem Float64.lt_irrefl (a : Float64) : Float64.lt a a = false := by
  cases a with
  | finite x => simp [Float64.lt]
  | inf s => cases s <;> simp [Float64.lt]

theorem Float64.lt_asymm (a b : Float64) (h : Float64.lt a b = true) :
    Float64.lt b a = false := by
  cases a with
  | finite x =>
    cases b with
    | finite y =>
      simp only [Float64.lt, decide_eq_true_eq, decide_eq_false_iff_not, not_lt] at *
      exact h.le
    | inf s => simpa [Float64.lt] using h
  | inf s =>
    cases b with
    | finite y => simpa [Float64.lt] using h
    | inf t => cases s <;> cases t <;> simp_all [Float64.lt]

theorem wrapInt64_of_inRange (x : Int) (h1 : -(2 ^ 63) ≤ x) (h2 : x < 2 ^ 63) :
    wrapInt64 x = x := by
  unfold wrapInt64
  omega

theorem truncQ_of_nonneg (x : ℚ) (hx : 0 ≤ x) : truncQ x = ⌊x⌋ := by
  simp [truncQ, hx]

/-- The float expression `float64(h) + float64(r)/D` truncates to `h` when
`r/D` is a fraction below `1 - 2^-j` and `h` leaves `j` digits free. -/
theorem truncQ_whole_plus_fraction (h r : Int) (D : ℚ) (j : Nat)
    (hh0 : 0 ≤ h) (hh : h * 2 ^ j + 2 ^ j < 2 ^ 53) (hr0 : 0 ≤ r) (hr : r < 2 ^ 53)
    (hD : 0 < D) (hfrac : (r : ℚ) / D ≤ 1 - 1 / 2 ^ j) :
    truncQ (roundToFloat (roundToFloat (h : ℚ) + roundToFloat (roundToFloat (r : ℚ) / D))) =
      h := by
  have hjpos : (0 : Int) < 2 ^ j := by positivity
  have hj53 : (2 : Int) ^ j < 2 ^ 53 := by nlinarith
  have hj : j < 53 := (Nat.pow_lt_pow_iff_right (by norm_num : 1 < 2)).1 (by exact_mod_cast hj53)
  have hh53 : |h| < 2 ^ 53 := by rw [abs_of_nonneg hh0]; nlinarith
  have hr53 : |r| < 2 ^ 53 := by rw [abs_of_nonneg hr0]; exact hr
  have hpowj : pow2 (-(j : Int)) = 1 / 2 ^ j := by
    rw [pow2_eq, zpow_neg, zpow_natCast, one_div]
  rw [roundToFloat_intCast h hh53, roundToFloat_intCast r hr53]
  -- the rounded fraction
  have hcap : roundToFloat (1 - 1 / 2 ^ j) = 1 - 1 / 2 ^ j := by
    have hd := roundToFloat_dyadic (2 ^ j - 1) (-(j : Int))
      (by rw [abs_of_nonneg (by omega)]; omega) (by omega)
    have hval : ((2 ^ j - 1 : Int) : ℚ) * pow2 (-(j : Int)) = 1 - 1 / 2 ^ j := by
      rw [hpowj]
      push_cast
      field_simp
    rwa [hval] at hd
  have ht0 : 0 ≤ roundToFloat ((r : ℚ) / D) :=
    roundToFloat_nonneg (div_nonneg (by exact_mod_cast hr0) hD.le)
  have ht1 : roundToFloat ((r : ℚ) / D) ≤ 1 - 1 / 2 ^ j := by
    have := roundToFloat_mono_nonneg (div_nonneg (by exact_mod_cast hr0) hD.le) hfrac
    rwa [hcap] at this
  -- the rounded sum
  have hhq : (0 : ℚ) ≤ (h : ℚ) := by exact_mod_cast hh0
  have hs0 : (h : ℚ) ≤ roundToFloat ((h : ℚ) + roundToFloat ((r : ℚ) / D)) := by
    have := roundToFloat_mono_nonneg hhq (le_add_of_nonneg_right ht0)
    rwa [roundToFloat_intCast h hh53] at this
  have htop : roundToFloat ((h : ℚ) + (1 - 1 / 2 ^ j)) = (h : ℚ) + (1 - 1 / 2 ^ j) := by
    have hd := roundToFloat_dyadic (h * 2 ^ j + 2 ^ j - 1) (-(j : Int))
      (by rw [abs_of_nonneg (by nlinarith)]; omega) (by omega)
    have hval : ((h * 2 ^ j + 2 ^ j - 1 : Int) : ℚ) * pow2 (-(j : Int)) =
        (h : ℚ) + (1 - 1 / 2 ^ j) := by
      rw [hpowj]
      push_cast
      field_simp
      ring
    rwa [hval] at hd
  have hs1 : roundToFloat ((h : ℚ) + roundToFloat ((r : ℚ) / D)) ≤ (h : ℚ) + (1 - 1 / 2 ^ j) := by
    have := roundToFloat_mono_nonneg (add_nonneg hhq ht0) (add_le_add_left ht1 (h : ℚ))
    rwa [htop] at this
  have hlt : roundToFloat ((h : ℚ) + roundToFloat ((r : ℚ) / D)) < (h : ℚ) + 1 := by
    have : (0 : ℚ) < 1 / 2 ^ j := by positivity
    linarith
  rw [truncQ_of_nonneg _ (hhq.trans hs0), Int.floor_eq_iff]
  exact ⟨hs0, hlt⟩

/-- The hours of a duration of `s` whole seconds, as `uint64(d.Hours())` gives
them. -/
theorem hours_of_seconds (rt : GoRuntime) (s : Int) (hs0 : 0 ≤ s)
    (hfit : s * 1000000000 < 2 ^ 63) :
    toUint64 rt (Duration.Hours (s * 1000000000)) = s.toNat / 3600 := by
  have hdiv : Int.tdiv (s * 1000000000) Hour = s / 3600 := by
    rw [Int.tdiv_eq_ediv (by omega) (by decide), Hour, Minute, Second]
    omega
  have hmod : Int.tmod (s * 1000000000) Hour = s % 3600 * 1000000000 := by
    rw [Int.tmod_eq_emod (by omega) (by decide), Hour, Minute, Second]
    omega
  have hk : (((s % 3600 * 1000000000 : Int) : ℚ)) / 3600000000000 ≤ 1 - 1 / 2 ^ 12 := by
    have h1 : ((s % 3600 : Int) : ℚ) ≤ 3599 := by
      exact_mod_cast (by omega : s % 3600 ≤ 3599)
    rw [div_le_iff₀ (by norm_num)]
    push_cast
    norm_num
    linarith
  have ht := truncQ_whole_plus_fraction (s / 3600) (s % 3600 * 1000000000) 3600000000000 12
    (by omega) (by omega) (by omega) (by omega) (by norm_num) hk
  unfold Duration.Hours toUint64
  simp only [hdiv, hmod, ht]
  rw [if_pos ⟨by omega, by omega⟩]
  omega

/-- The minutes of a duration of `s` whole seconds, before the reduction
modulo 60. -/
theorem minutes_of_seconds (rt : GoRuntime) (s : Int) (hs0 : 0 ≤ s)
    (hfit : s * 1000000000 < 2 ^ 63) :
    toUint64 rt (Duration.Minutes (s * 1000000000)) = s.toNat / 60 := by
  have hdiv : Int.tdiv (s * 1000000000) Minute = s / 60 := by
    rw [Int.tdiv_eq_ediv (by omega) (by decide), Minute, Second]
    omega
  have hmod : Int.tmod (s * 1000000000) Minute = s % 60 * 1000000000 := by
    rw [Int.tmod_eq_emod (by omega) (by decide), Minute, Second]
    omega
  have hk : (((s % 60 * 1000000000 : Int) : ℚ)) / 60000000000 ≤ 1 - 1 / 2 ^ 6 := by
    have h1 : ((s % 60 : Int) : ℚ) ≤ 59 := by
      exact_mod_cast (by omega : s % 60 ≤ 59)
    rw [div_le_iff₀ (by norm_num)]
    push_cast
    norm_num
    linarith
  have ht := truncQ_whole_plus_fraction (s / 60) (s % 60 * 1000000000) 60000000000 6
    (by omega) (by omega) (by omega) (by omega) (by norm_num) hk
  unfold Duration.Minutes toUint64
  simp only [hdiv, hmod, ht]
  rw [if_pos ⟨by omega, by omega⟩]
  omega

/-! ## Lemmas on maps -/

theorem mapLookup_mapAssign (m : GoMap) (k : String) (v : Float64) (k' : String) :
    mapLookup (mapAssign m k v) k' = if k = k' then some v else mapLookup m k' := by
  induction m with
  | nil => simp [mapAssign, mapLookup]
  | cons e rest ih =>
    obtain ⟨a, b⟩ := e
    by_cases h : a = k
    · subst h
      by_cases h2 : a = k' <;> simp [mapAssign, mapLookup, h2]
    · by_cases h2 : a = k'
      · subst h2
        have h3 : ¬ k = a := fun e => h e.symm
        simp [mapAssign, mapLookup, h, h3]
      · simp [mapAssign, mapLookup, h, h2, ih]

theorem mapLookup_isSome_iff (m : GoMap) (k : String) :
    (mapLookup m k).isSome = true ↔ k ∈ m.map Prod.fst := by
  induction m with
  | nil => simp [mapLookup]
  | cons e rest ih =>
    obtain ⟨a, b⟩ := e
    by_cases h : a = k
    · simp [mapLookup, h]
    · have h3 : ¬ k = a := fun e => h e.symm
      simp [mapLookup, h, h3, ih]

theorem keys_mapAssign (m : GoMap) (k : String) (v : Float64) :
    (mapAssign m k v).map Prod.fst =
      if k ∈ m.map Prod.fst then m.map Prod.fst else m.map Prod.fst ++ [k] := by
  induction m with
  | nil => simp [mapAssign]
  | cons e rest ih =>
    obtain ⟨a, b⟩ := e
    by_cases h : a = k
    · simp [mapAssign, h]
    · have h3 : ¬ k = a := fun e => h e.symm
      simp only [mapAssign, h, if_false, List.map_cons, ih, List.mem_cons, h3, false_or]
      split <;> simp

theorem mapLookup_of_mem (m : GoMap) (hnd : (m.map Prod.fst).Nodup) (k : String) (v : Float64)
    (hmem : (k, v) ∈ m) : mapLookup m k = some v := by
  induction m with
  | nil => simp at hmem
  | cons e rest ih =>
    obtain ⟨a, b⟩ := e
    simp only [List.map_cons, List.nodup_cons] at hnd
    simp only [List.mem_cons, Prod.mk.injEq] at hmem
    rcases hmem with ⟨h1, h2⟩ | h
    · simp [mapLookup, h1, h2]
    · have hne : ¬ a = k := by
        intro e
        apply hnd.1
        rw [e]
        exact List.mem_map_of_mem Prod.fst h
      simp [mapLookup, hne, ih hnd.2 h]

/-! ## The aggregation loop -/

theorem aggregate_snoc (l : List DurationResponseData) (d : DurationResponseData) :
    aggregate (l ++ [d]) = aggStep (aggregate l) d := by
  simp [aggregate, List.foldl_append]

theorem floatTotal_snoc (l : List DurationResponseData) (d : DurationResponseData)
    (k : String) :
    floatTotal (l ++ [d]) k =
      if d.Language = k then Float64.addFinite (floatTotal l k) d.Duration
      else floatTotal l k := by
  by_cases h : d.Language = k <;>
    simp [floatTotal, List.filter_append, List.filter_cons, List.foldl_append, h]

theorem floatGrandTotal_snoc (l : List DurationResponseData) (d : DurationResponseData) :
    floatGrandTotal (l ++ [d]) =
      if d.Language = "Other" then floatGrandTotal l
      else Float64.addFinite (floatGrandTotal l) d.Duration := by
  by_cases h : d.Language = "Other" <;>
    simp [floatGrandTotal, List.filter_append, List.filter_cons, List.foldl_append, h]

theorem observedLangs_snoc (l : List DurationResponseData) (d : DurationResponseData) :
    observedLangs (l ++ [d]) =
      observedLangs l ++ (if d.Language = "Other" then [] else [d.Language]) := by
  by_cases h : d.Language = "Other" <;>
    simp [observedLangs, List.filter_append, List.filter_cons, h]

theorem other_not_mem_observedLangs (obs : List DurationResponseData) :
    "Other" ∉ observedLangs obs := by
  simp [observedLangs]

theorem floatTotal_of_not_observed (l : List DurationResponseData) (k : String)
    (hk : k ≠ "Other") (hnot : k ∉ observedLangs l) : floatTotal l k = .finite 0 := by
  have hempty : l.filter (fun d => d.Language = k) = [] := by
    rw [List.filter_eq_nil_iff]
    intro d hd hdk
    apply hnot
    simp only [observedLangs, List.mem_filter, List.mem_map]
    simp only [decide_eq_true_eq] at hdk
    exact ⟨⟨d, hd, hdk⟩, by simpa using hk⟩
  simp [floatTotal, hempty]

/-- The step of the loop on the map, as a function of the key read. -/
theorem aggStep_lookup (st : AggState) (d : DurationResponseData)
    (hd : d.Language ≠ "Other") (k : String) :
    mapLookup (aggStep st d).durationMap k =
      if d.Language = k then
        some (Float64.addFinite (mapIndex st.durationMap d.Language) d.Duration)
      else mapLookup st.durationMap k := by
  simp only [aggStep, hd, if_false]
  cases hlk : mapLookup st.durationMap d.Language with
  | none =>
    simp only [Option.isSome_none, Bool.false_eq_true, if_false, mapLookup_mapAssign, mapIndex,
      if_true, Option.getD_some, Option.getD_none, hlk]
    by_cases h : d.Language = k <;> simp [h]
  | some v =>
    simp only [Option.isSome_some, if_true, mapLookup_mapAssign, mapIndex, hlk]

theorem aggStep_keys (st : AggState) (d : DurationResponseData)
    (hd : d.Language ≠ "Other") :
    (aggStep st d).durationMap.map Prod.fst =
      if d.Language ∈ st.durationMap.map Prod.fst then st.durationMap.map Prod.fst
      else st.durationMap.map Prod.fst ++ [d.Language] := by
  simp only [aggStep, hd, if_false]
  by_cases hmem : d.Language ∈ st.durationMap.map Prod.fst
  · have hs := (mapLookup_isSome_iff st.durationMap d.Language).2 hmem
    simp only [hs, if_true, keys_mapAssign, hmem]
  · have hs : ¬ (mapLookup st.durationMap d.Language).isSome = true :=
      fun h => hmem ((mapLookup_isSome_iff _ _).1 h)
    simp only [hs, Bool.false_eq_true, if_false]
    rw [keys_mapAssign, keys_mapAssign]
    simp [hmem]

/-- The grand total of the loop is the float sum of the durations other than
those of "Other". -/
theorem aggregate_seconds (obs : List DurationResponseData) :
    (aggregate obs).durationSeconds = floatGrandTotal obs := by
  induction obs using List.reverseRecOn with
  | nil => simp [aggregate, floatGrandTotal]
  | append_singleton l d ih =>
    rw [aggregate_snoc, floatGrandTotal_snoc]
    by_cases h : d.Language = "Other"
    · simp [aggStep, h, ih]
    · simp [aggStep, h, ih]

/-- What the map holds after the loop: a language that was observed has the
float sum of its durations, any other key is absent. -/
theorem aggregate_lookup (obs : List DurationResponseData) (k : String) :
    mapLookup (aggregate obs).durationMap k =
      if k ∈ observedLangs obs then some (floatTotal obs k) else none := by
  induction obs using List.reverseRecOn generalizing k with
  | nil => simp [aggregate, observedLangs, mapLookup]
  | append_singleton l d ih =>
    rw [aggregate_snoc, observedLangs_snoc, floatTotal_snoc]
    by_cases h : d.Language = "Other"
    · have hk : ¬ d.Language = k ∨ k ∉ observedLangs l := by
        by_cases hdk : d.Language = k
        · right
          intro hmem
          simp only [observedLangs, List.mem_filter] at hmem
          rw [← hdk, h] at hmem
          simp at hmem
        · left; exact hdk
      rcases hk with hk | hk
      · have hk2 : ¬ "Other" = k := fun e => hk (h.trans e)
        simp [aggStep, h, ih, hk2]
      · simp [aggStep, h, ih, hk]
    · rw [aggStep_lookup _ _ h]
      by_cases hdk : d.Language = k
      · subst hdk
        simp only [if_true, h, if_false, List.mem_append, List.mem_singleton, or_true, mapIndex,
          ih]
        by_cases hmem : d.Language ∈ observedLangs l
        · simp [hmem]
        · simp [hmem, floatTotal_of_not_observed l d.Language h hmem]
      · have hkd : ¬ k = d.Language := fun e => hdk e.symm
        simp [hdk, hkd, h, ih]

theorem aggregate_keys_nodup (obs : List DurationResponseData) :
    ((aggregate obs).durationMap.map Prod.fst).Nodup := by
  induction obs using List.reverseRecOn with
  | nil => simp [aggregate]
  | append_singleton l d ih =>
    rw [aggregate_snoc]
    by_cases h : d.Language = "Other"
    · simpa [aggStep, h] using ih
    · rw [aggStep_keys _ _ h]
      by_cases hmem : d.Language ∈ (aggregate l).durationMap.map Prod.fst
      · simpa [hmem] using ih
      · simp only [hmem, if_false]
        rw [List.nodup_append]
        refine ⟨ih, List.nodup_singleton _, ?_⟩
        intro a ha hb
        simp only [List.mem_singleton] at hb
        exact hmem (hb ▸ ha)

theorem aggregate_mem_keys (obs : List DurationResponseData) (k : String) :
    k ∈ (aggregate obs).durationMap.map Prod.fst ↔ k ∈ observedLangs obs := by
  rw [← mapLookup_isSome_iff, aggregate_lookup]
  by_cases h : k ∈ observedLangs obs <;> simp [h]

theorem aggregate_entry (obs : List DurationResponseData) (k : String) (v : Float64)
    (hmem : (k, v) ∈ (aggregate obs).durationMap) :
    k ∈ observedLangs obs ∧ v = floatTotal obs k := by
  have hl := mapLookup_of_mem _ (aggregate_keys_nodup obs) k v hmem
  rw [aggregate_lookup] at hl
  by_cases h : k ∈ observedLangs obs
  · simp only [h, if_true, Option.some.injEq] at hl
    exact ⟨h, hl.symm⟩
  · simp [h] at hl

/-- The loop leaves both accumulators as they were when every record is "Other". -/
theorem aggregate_all_other (obs : List DurationResponseData)
    (hall : ∀ d ∈ obs, d.Language = "Other") :
    aggregate obs = { durationSeconds := .finite 0, durationMap := [] } := by
  induction obs using List.reverseRecOn with
  | nil => rfl
  | append_singleton l d ih =>
    rw [aggregate_snoc, ih (fun x hx => hall x (List.mem_append_left _ hx))]
    simp [aggStep, hall d (by simp)]

theorem reverseLess_eq_false_iff (p : PairList) (i : Nat) (h : i + 1 < p.length) :
    reverseLess p (i + 1) i = false ↔
      Ranked (p.get ⟨i, by omega⟩) (p.get ⟨i + 1, h⟩) := by
  have hi : i < p.length := by omega
  simp [reverseLess, PairList.Less, Ranked, List.getD_eq_getElem, h, hi]

/-- A slice that `sort.Sort(sort.Reverse(p))` has sorted is ranked throughout. -/
theorem sortReverse_pairwise (rt : GoRuntime) (hrt : rt.Conforms) (p : PairList) :
    (rt.sortReverse p).Pairwise Ranked := by
  haveI : IsTrans Pair Ranked :=
    ⟨fun a b c hab hbc => Float64.lt_trans_false a.Value b.Value c.Value hab hbc⟩
  rw [← List.chain'_iff_pairwise, List.chain'_iff_get]
  intro i h
  have h2 : i + 1 < (rt.sortReverse p).length := by omega
  exact (reverseLess_eq_false_iff _ i h2).1 (hrt.sortReverse_sorted p i h2)

theorem rankedPairs_perm (rt : GoRuntime) (hrt : rt.Conforms) (m : GoMap) :
    (rankedPairs rt m).Perm (m.map (fun kv => Pair.mk kv.1 kv.2)) :=
  (hrt.sortReverse_perm _).trans ((hrt.mapRange_perm m).map _)

theorem rankedPairs_keys_perm (rt : GoRuntime) (hrt : rt.Conforms) (m : GoMap) :
    ((rankedPairs rt m).map Pair.Key).Perm (m.map Prod.fst) := by
  have h := (rankedPairs_perm rt hrt m).map Pair.Key
  simpa [List.map_map, Function.comp_def] using h

theorem rankedPairs_pairwise (rt : GoRuntime) (hrt : rt.Conforms) (m : GoMap) :
    (rankedPairs rt m).Pairwise Ranked :=
  sortReverse_pairwise rt hrt _

/-- Every pair of the ranking is an entry of the map. -/
theorem rankedPairs_mem (rt : GoRuntime) (hrt : rt.Conforms) (m : GoMap) (p : Pair)
    (hp : p ∈ rankedPairs rt m) : (p.Key, p.Value) ∈ m := by
  have h := (rankedPairs_perm rt hrt m).mem_iff.1 hp
  simp only [List.mem_map] at h
  obtain ⟨kv, hkv, rfl⟩ := h
  exact hkv

/-- The value of a pair of the ranking is the float sum of the durations of its
language. -/
theorem rankedPairs_value (rt : GoRuntime) (hrt : rt.Conforms)
    (obs : List DurationResponseData) (p : Pair)
    (hp : p ∈ rankedPairs rt (aggregate obs).durationMap) :
    p.Value = floatTotal obs p.Key :=
  (aggregate_entry obs p.Key p.Value (rankedPairs_mem rt hrt _ p hp)).2

theorem topLangs_perm (rt : GoRuntime) (hrt : rt.Conforms)
    (obs : List DurationResponseData) :
    (summarize rt obs).TopLangs.Perm ((aggregate obs).durationMap.map Prod.fst) :=
  rankedPairs_keys_perm rt hrt _

theorem mem_topLangs_iff (rt : GoRuntime) (hrt : rt.Conforms)
    (obs : List DurationResponseData) (k : String) :
    k ∈ (summarize rt obs).TopLangs ↔ k ∈ observedLangs obs := by
  rw [(topLangs_perm rt hrt obs).mem_iff, aggregate_mem_keys]

theorem topLangs_nodup (rt : GoRuntime) (hrt : rt.Conforms)
    (obs : List DurationResponseData) : (summarize rt obs).TopLangs.Nodup :=
  (topLangs_perm rt hrt obs).nodup_iff.2 (aggregate_keys_nodup obs)

theorem topLangs_length (rt : GoRuntime) (hrt : rt.Conforms)
    (obs : List DurationResponseData) :
    (summarize rt obs).TopLangs.length = (observedLangs obs).toFinset.card := by
  rw [← List.toFinset_card_of_nodup (topLangs_nodup rt hrt obs)]
  congr 1
  ext k
  simp [mem_topLangs_iff rt hrt obs k]

/-- The ranking by float total: of two entries of `TopLangs`, the earlier one
has no smaller total. -/
theorem topLangs_pairwise (rt : GoRuntime) (hrt : rt.Conforms)
    (obs : List DurationResponseData) :
    (summarize rt obs).TopLangs.Pairwise
      (fun a b => Float64.le (floatTotal obs b) (floatTotal obs a)) := by
  have h := rankedPairs_pairwise rt hrt (aggregate obs).durationMap
  have h2 : (rankedPairs rt (aggregate obs).durationMap).Pairwise
      (fun a b => Float64.le (floatTotal obs b.Key) (floatTotal obs a.Key)) := by
    refine List.Pairwise.imp_of_mem ?_ h
    intro a b ha hb hab
    unfold Float64.le
    rw [← rankedPairs_value rt hrt obs a ha, ← rankedPairs_value rt hrt obs b hb]
    exact hab
  show ((rankedPairs rt (aggregate obs).durationMap).map Pair.Key).Pairwise
    (fun a b => Float64.le (floatTotal obs b) (floatTotal obs a))
  rw [List.pairwise_map]
  exact h2

/-- A ranked list that permutes two pairs, the first of the larger value, is
the larger one, then the smaller. -/
theorem ranked_pair_unique (l : List Pair) (a b : Pair)
    (hab : Float64.lt b.Value a.Value = true)
    (hperm : l.Perm [a, b]) (hsorted : l.Pairwise Ranked) : l = [a, b] := by
  have hlen := hperm.length_eq
  match l, hlen with
  | [x, y], _ =>
    have hx : x ∈ [a, b] := hperm.mem_iff.1 (by simp)
    have ha : a ∈ [x, y] := hperm.mem_iff.2 (by simp)
    have hb : b ∈ [x, y] := hperm.mem_iff.2 (by simp)
    simp only [List.mem_cons, List.mem_singleton, List.not_mem_nil, or_false] at hx ha hb
    have hxy : Ranked x y := by
      simp only [List.pairwise_cons, List.mem_singleton, forall_eq] at hsorted
      exact hsorted.1
    unfold Ranked at hxy
    have hne : a ≠ b := by
      intro e
      rw [e, Float64.lt_irrefl] at hab
      exact Bool.false_ne_true hab
    rcases hx with rfl | rfl
    · rcases hb with h | h
      · exact absurd h.symm hne
      · rw [h]
    · rcases ha with h | h
      · exact absurd h hne
      · rw [h] at hab
        rw [hab] at hxy
        exact absurd hxy (by decide)

/-! ## Insertion sort meets the contract of `sort.Sort` -/

theorem sinkLeft_perm (x : Pair) (l : List Pair) : (sinkLeft x l).Perm (x :: l) := by
  induction l with
  | nil => simp [sinkLeft]
  | cons y ys ih =>
    by_cases h : Float64.lt y.Value x.Value = true
    · simp only [sinkLeft, h, if_true]
      exact (List.Perm.cons y ih).trans (List.Perm.swap x y ys)
    · simp [sinkLeft, h]

theorem sinkLeft_pairwise (x : Pair) (l : List Pair)
    (hl : l.Pairwise (fun a b => Ranked b a)) :
    (sinkLeft x l).Pairwise (fun a b => Ranked b a) := by
  induction l with
  | nil => simp [sinkLeft]
  | cons y ys ih =>
    rw [List.pairwise_cons] at hl
    by_cases h : Float64.lt y.Value x.Value = true
    · simp only [sinkLeft, h, if_true, List.pairwise_cons]
      refine ⟨?_, ih hl.2⟩
      intro b hb
      rcases List.mem_cons.1 ((sinkLeft_perm x ys).mem_iff.1 hb) with rfl | hb2
      · exact Float64.lt_asymm _ _ h
      · exact hl.1 b hb2
    · have hxy : Ranked y x := by
        unfold Ranked
        simpa using h
      have hf : Float64.lt y.Value x.Value = false := hxy
      simp only [sinkLeft, hf, Bool.false_eq_true, if_false, List.pairwise_cons]
      refine ⟨?_, hl.1, hl.2⟩
      intro b hb
      rcases List.mem_cons.1 hb with rfl | hb2
      · exact hxy
      · exact Float64.lt_trans_false _ _ _ (hl.1 b hb2) hxy

theorem insertionSortFrom_perm (done rest : List Pair) :
    (insertionSortFrom done rest).Perm (done ++ rest) := by
  induction rest generalizing done with
  | nil => simp [insertionSortFrom]
  | cons x xs ih =>
    simp only [insertionSortFrom]
    refine (ih (sinkLeft x done)).trans ?_
    refine ((sinkLeft_perm x done).append_right xs).trans ?_
    exact List.perm_middle.symm

theorem insertionSortFrom_pairwise (done rest : List Pair)
    (hd : done.Pairwise (fun a b => Ranked b a)) :
    (insertionSortFrom done rest).Pairwise Ranked := by
  induction rest generalizing done with
  | nil =>
    simp only [insertionSortFrom, List.pairwise_reverse]
    exact hd
  | cons x xs ih =>
    simp only [insertionSortFrom]
    exact ih _ (sinkLeft_pairwise x done hd)

theorem insertionSort_perm (p : PairList) : (insertionSort p).Perm p := by
  simpa [insertionSort] using insertionSortFrom_perm [] p

theorem insertionSort_sorted (p : PairList) (i : Nat)
    (h : i + 1 < (insertionSort p).length) :
    reverseLess (insertionSort p) (i + 1) i = false := by
  rw [reverseLess_eq_false_iff _ i h]
  have hp : (insertionSort p).Pairwise Ranked :=
    insertionSortFrom_pairwise [] p List.Pairwise.nil
  exact List.pairwise_iff_get.1 hp ⟨i, by omega⟩ ⟨i + 1, h⟩ (by simp)

theorem insertionRuntime_conforms (order : GoMap → GoMap)
    (horder : ∀ m, (order m).Perm m) : (insertionRuntime order).Conforms where
  mapRange_perm := horder
  sortReverse_perm := insertionSort_perm
  sortReverse_sorted := insertionSort_sorted

theorem insertionOrderRuntime_conforms : insertionOrderRuntime.Conforms :=
  insertionRuntime_conforms id (fun m => List.Perm.refl m)

theorem reverseOrderRuntime_conforms : reverseOrderRuntime.Conforms :=
  insertionRuntime_conforms List.reverse List.reverse_perm

/-- The hours and minutes of a summary whose float grand total `g` is finite,
non-negative and fits, in nanoseconds, an `int64`: the whole seconds, divided. -/
theorem summarize_time (rt : GoRuntime) (obs : List DurationResponseData) (g : ℚ)
    (hG : floatGrandTotal obs = .finite g) (h0 : 0 ≤ g)
    (hfit : ⌊g⌋ * 1000000000 < 2 ^ 63) :
    (summarize rt obs).TotalHour = ⌊g⌋.toNat / 3600 ∧
      (summarize rt obs).TotalMin = ⌊g⌋.toNat / 60 % 60 := by
  have hS : 0 ≤ ⌊g⌋ := Int.floor_nonneg.2 h0
  have hconv : toInt64 rt (aggregate obs).durationSeconds = ⌊g⌋ := by
    rw [aggregate_seconds, hG]
    unfold toInt64
    simp only []
    rw [truncQ_of_nonneg _ h0, if_pos ⟨by omega, by omega⟩]
  have hd : wrapInt64 (toInt64 rt (aggregate obs).durationSeconds * Second) =
      ⌊g⌋ * 1000000000 := by
    rw [hconv, Second, wrapInt64_of_inRange _ (by omega) hfit]
  constructor
  · show toUint64 rt (Duration.Hours (wrapInt64 (toInt64 rt
      (aggregate obs).durationSeconds * Second))) = _
    rw [hd, hours_of_seconds rt _ hS hfit]
  · show toUint64 rt (Duration.Minutes (wrapInt64 (toInt64 rt
      (aggregate obs).durationSeconds * Second))) % 60 = _
    rw [hd, minutes_of_seconds rt _ hS hfit]

/-! ## The examples, evaluated -/

theorem summary_eq (s : TodaySummary) (h m : Nat) (l : List String)
    (hh : s.TotalHour = h) (hm : s.TotalMin = m) (hl : s.TopLangs = l) :
    s = { TotalHour := h, TotalMin := m, TopLangs := l } := by
  cases s
  simp_all

theorem aggregate_example :
    aggregate exampleObservations =
      { durationSeconds := .finite 6300,
        durationMap := [("Go", .finite 5400), ("Python", .finite 900)] } := by
  decide!

theorem floatGrandTotal_example : floatGrandTotal exampleObservations = .finite 6300 := by
  rw [← aggregate_seconds, aggregate_example]

/-- The summary of the example of the specification, under every conforming
implementation. -/
theorem summarize_example (rt : GoRuntime) (hrt : rt.Conforms) :
    summarize rt exampleObservations =
      { TotalHour := 1, TotalMin := 45, TopLangs := ["Go", "Python"] } := by
  have hfloor : ⌊(6300 : ℚ)⌋ = 6300 := by decide!
  obtain ⟨hH, hM⟩ := summarize_time rt exampleObservations 6300 floatGrandTotal_example
    (by norm_num) (by rw [hfloor]; norm_num)
  rw [hfloor] at hH hM
  have hpairs : rankedPairs rt [("Go", .finite 5400), ("Python", .finite 900)] =
      [⟨"Go", .finite 5400⟩, ⟨"Python", .finite 900⟩] := by
    apply ranked_pair_unique _ _ _ (by decide!)
    · simpa using rankedPairs_perm rt hrt [("Go", .finite 5400), ("Python", .finite 900)]
    · exact rankedPairs_pairwise rt hrt _
  have hL : (summarize rt exampleObservations).TopLangs = ["Go", "Python"] := by
    show (rankedPairs rt (aggregate exampleObservations).durationMap).map Pair.Key = _
    rw [aggregate_example]
    show (rankedPairs rt [("Go", .finite 5400), ("Python", .finite 900)]).map Pair.Key = _
    rw [hpairs]
    rfl
  exact summary_eq _ 1 45 _ (hH.trans (by decide)) (hM.trans (by decide)) hL

/-- The records 3599.7 and 0.3 add up, as `float64`, to 3600 exactly, and the
summary is 1 hour 0 minutes; their exact sum is below 3600. -/
theorem summarize_roundedToTheHour :
    floatGrandTotal roundedToTheHour = .finite 3600 ∧
      grandTotal roundedToTheHour < 3600 ∧
      (summarize insertionOrderRuntime roundedToTheHour).TotalHour = 1 ∧
      (summarize insertionOrderRuntime roundedToTheHour).TotalMin = 0 := by
  decide!

/-! ## The claims -/

/-- C1: for every list of observations, "Other" is not an element of the
`TopLangs` of the summary, whatever the durations of its observations. -/
theorem other_not_in_topLangs (rt : GoRuntime) (hrt : rt.Conforms)
    (obs : List DurationResponseData) : "Other" ∉ (summarize rt obs).TopLangs := by
  rw [mem_topLangs_iff rt hrt obs]
  exact other_not_mem_observedLangs obs

/-- C1 at the example input, where "Other" has the largest duration. -/
theorem other_not_in_topLangs_witness :
    insertionOrderRuntime.Conforms ∧
      "Other" ∉ (summarize insertionOrderRuntime exampleObservations).TopLangs :=
  ⟨insertionOrderRuntime_conforms,
    other_not_in_topLangs insertionOrderRuntime insertionOrderRuntime_conforms
      exampleObservations⟩

/-- C2, as stated, fails: ten records of 0.1 s of Go add up, as `float64`, to
`1 - 2^-53`, below the 1 s of Python, so Python is ranked first; in exact
arithmetic the total of Go (ten times the `float64` nearest to 0.1) is above
that of Python. -/
theorem exact_totals_not_nonincreasing :
    insertionOrderRuntime.Conforms ∧
      (summarize insertionOrderRuntime tenTenths).TopLangs = ["Python", "Go"] ∧
      langTotal tenTenths "Python" < langTotal tenTenths "Go" ∧
      floatTotal tenTenths "Python" = .finite 1 ∧
      floatTotal tenTenths "Go" = .finite (1 - 1 / 2 ^ 53) :=
  ⟨insertionOrderRuntime_conforms, by decide!, by decide!, by decide!, by decide!⟩

/-- C2, amended: `TopLangs` is ordered by non-increasing total, the total of
a language being the `float64` sum the loop accumulates (each addition
rounded): of two consecutive entries `a`, `b` the total of `b` is at most that
of `a`. -/
theorem topLangs_consecutive_float_nonincreasing (rt : GoRuntime) (hrt : rt.Conforms)
    (obs : List DurationResponseData) (i : Nat) (a b : String)
    (ha : (summarize rt obs).TopLangs[i]? = some a)
    (hb : (summarize rt obs).TopLangs[i + 1]? = some b) :
    Float64.le (floatTotal obs b) (floatTotal obs a) := by
  obtain ⟨hi, rfl⟩ := List.getElem?_eq_some_iff.1 ha
  obtain ⟨hj, rfl⟩ := List.getElem?_eq_some_iff.1 hb
  exact List.pairwise_iff_getElem.1 (topLangs_pairwise rt hrt obs) i (i + 1) hi hj (by omega)

/-- C2 amended, at the ten records of 0.1 s: Python (1 s) is followed by Go
(`1 - 2^-53` s). -/
theorem topLangs_consecutive_float_nonincreasing_witness :
    insertionOrderRuntime.Conforms ∧
      (summarize insertionOrderRuntime tenTenths).TopLangs[0]? = some "Python" ∧
      (summarize insertionOrderRuntime tenTenths).TopLangs[0 + 1]? = some "Go" ∧
      Float64.le (floatTotal tenTenths "Go") (floatTotal tenTenths "Python") := by
  have h0 : (summarize insertionOrderRuntime tenTenths).TopLangs[0]? = some "Python" := by
    decide!
  have h1 : (summarize insertionOrderRuntime tenTenths).TopLangs[0 + 1]? = some "Go" := by
    decide!
  exact ⟨insertionOrderRuntime_conforms, h0, h1,
    topLangs_consecutive_float_nonincreasing insertionOrderRuntime
      insertionOrderRuntime_conforms tenTenths 0 "Python" "Go" h0 h1⟩

/-- C3: the length of `TopLangs` is the number of distinct languages other
than "Other" of the input, and `TopLangs` has no language twice. -/
theorem topLangs_distinct_count (rt : GoRuntime) (hrt : rt.Conforms)
    (obs : List DurationResponseData) :
    (summarize rt obs).TopLangs.length = (observedLangs obs).toFinset.card ∧
      (summarize rt obs).TopLangs.Nodup :=
  ⟨topLangs_length rt hrt obs, topLangs_nodup rt hrt obs⟩

/-- C3 at the example input. -/
theorem topLangs_distinct_count_witness :
    insertionOrderRuntime.Conforms ∧
      ((summarize insertionOrderRuntime exampleObservations).TopLangs.length =
          (observedLangs exampleObservations).toFinset.card ∧
        (summarize insertionOrderRuntime exampleObservations).TopLangs.Nodup) :=
  ⟨insertionOrderRuntime_conforms,
    topLangs_distinct_count insertionOrderRuntime insertionOrderRuntime_conforms
      exampleObservations⟩

/-- C5: the `TotalMin` of every summary is in the range 0..59, with no
condition on the durations. -/
theorem totalMin_range (rt : GoRuntime) (obs : List DurationResponseData) :
    0 ≤ (summarize rt obs).TotalMin ∧ (summarize rt obs).TotalMin ≤ 59 := by
  refine ⟨Nat.zero_le _, ?_⟩
  show toUint64 rt _ % 60 ≤ 59
  omega

/-- C7: when every observation has language "Other" (the empty list
included), `GetTodaySummary` returns, without error, the summary with zero
hours, zero minutes and no language. -/
theorem only_other_gives_zero_summary (rt : GoRuntime) (hrt : rt.Conforms)
    (resp : DurationResponse) (hall : ∀ d ∈ resp.Data, d.Language = "Other") :
    GetTodaySummary rt (.ok resp) =
      .ok { TotalHour := 0, TotalMin := 0, TopLangs := [] } := by
  have hagg := aggregate_all_other resp.Data hall
  have hG : floatGrandTotal resp.Data = .finite 0 := by rw [← aggregate_seconds, hagg]
  have hfloor : ⌊(0 : ℚ)⌋ = 0 := Int.floor_zero
  obtain ⟨hH, hM⟩ := summarize_time rt resp.Data 0 hG (le_refl 0) (by rw [hfloor]; norm_num)
  rw [hfloor] at hH hM
  have hL : (summarize rt resp.Data).TopLangs = [] := by
    have h := topLangs_perm rt hrt resp.Data
    rw [hagg] at h
    exact List.perm_nil.1 h
  show Except.ok (summarize rt resp.Data) = _
  rw [summary_eq _ 0 0 _ (hH.trans (by decide)) (hM.trans (by decide)) hL]

/-- C7 at a day on which only "Other" was tracked. -/
theorem only_other_gives_zero_summary_witness :
    insertionOrderRuntime.Conforms ∧
      (∀ d ∈ (responseOf onlyOtherObservations).Data, d.Language = "Other") ∧
      GetTodaySummary insertionOrderRuntime (.ok (responseOf onlyOtherObservations)) =
        .ok { TotalHour := 0, TotalMin := 0, TopLangs := [] } := by
  have hall : ∀ d ∈ (responseOf onlyOtherObservations).Data, d.Language = "Other" := by
    intro d hd
    simp only [responseOf, onlyOtherObservations, List.mem_cons, List.mem_singleton,
      List.not_mem_nil, or_false] at hd
    rcases hd with rfl | rfl <;> rfl
  exact ⟨insertionOrderRuntime_conforms, hall,
    only_other_gives_zero_summary insertionOrderRuntime insertionOrderRuntime_conforms
      (responseOf onlyOtherObservations) hall⟩

/-- C8: on `[{Go,3600},{Go,1800},{Python,900},{Other,5000}]` the loop leaves
the totals `{Go: 5400, Python: 900}` and the grand total 6300, and the summary
is 1 hour, 45 minutes, `[Go, Python]`. -/
theorem example_summary (rt : GoRuntime) (hrt : rt.Conforms) :
    (aggregate exampleObservations).durationMap =
        [("Go", .finite 5400), ("Python", .finite 900)] ∧
      (aggregate exampleObservations).durationSeconds = .finite 6300 ∧
      GetTodaySummary rt (.ok (responseOf exampleObservations)) =
        .ok { TotalHour := 1, TotalMin := 45, TopLangs := ["Go", "Python"] } := by
  refine ⟨by rw [aggregate_example], by rw [aggregate_example], ?_⟩
  show Except.ok (summarize rt exampleObservations) = _
  rw [summarize_example rt hrt]

/-- C8 under the implementation that visits the map in reverse. -/
theorem example_summary_witness :
    reverseOrderRuntime.Conforms ∧
      ((aggregate exampleObservations).durationMap =
          [("Go", .finite 5400), ("Python", .finite 900)] ∧
        (aggregate exampleObservations).durationSeconds = .finite 6300 ∧
        GetTodaySummary reverseOrderRuntime (.ok (responseOf exampleObservations)) =
          .ok { TotalHour := 1, TotalMin := 45, TopLangs := ["Go", "Python"] }) :=
  ⟨reverseOrderRuntime_conforms, example_summary reverseOrderRuntime reverseOrderRuntime_conforms⟩

/-- C9, as stated, fails: Go and Python both total 1 second and Go is
observed first; the implementation that visits the map in reverse ranks Python
first, the one that visits it in order of assignment ranks Go first, and both
conform. -/
theorem tie_order_not_stable :
    insertionOrderRuntime.Conforms ∧ reverseOrderRuntime.Conforms ∧
      observedLangs tiedObservations = ["Go", "Python"] ∧
      langTotal tiedObservations "Go" = langTotal tiedObservations "Python" ∧
      (summarize insertionOrderRuntime tiedObservations).TopLangs = ["Go", "Python"] ∧
      (summarize reverseOrderRuntime tiedObservations).TopLangs = ["Python", "Go"] ∧
      ¬ StableRanking reverseOrderRuntime tiedObservations := by
  have hobs : observedLangs tiedObservations = ["Go", "Python"] := by decide!
  have htot : langTotal tiedObservations "Go" = langTotal tiedObservations "Python" := by
    decide!
  have hrev : (summarize reverseOrderRuntime tiedObservations).TopLangs = ["Python", "Go"] := by
    decide!
  refine ⟨insertionOrderRuntime_conforms, reverseOrderRuntime_conforms, hobs, htot,
    by decide!, hrev, ?_⟩
  intro hstable
  have h := hstable "Go" "Python" (by decide) (by rw [hobs]; simp) (by rw [hobs]; simp) htot
    (by rw [hobs]; decide)
  rw [hrev] at h
  revert h
  decide

/-- C9, amended: of two languages of `TopLangs` with different totals, the
total of a language being the `float64` sum the loop accumulates, the one with
the larger total comes first, wherever they stand in the input. -/
theorem larger_float_total_ranks_earlier (rt : GoRuntime) (hrt : rt.Conforms)
    (obs : List DurationResponseData) (i j : Nat) (a b : String)
    (ha : (summarize rt obs).TopLangs[i]? = some a)
    (hb : (summarize rt obs).TopLangs[j]? = some b)
    (hlt : Float64.lt (floatTotal obs b) (floatTotal obs a) = true) : i < j := by
  obtain ⟨hi, rfl⟩ := List.getElem?_eq_some_iff.1 ha
  obtain ⟨hj, rfl⟩ := List.getElem?_eq_some_iff.1 hb
  by_contra hij
  rcases Nat.lt_or_eq_of_le (Nat.le_of_not_lt hij) with h | h
  · have hle := List.pairwise_iff_getElem.1 (topLangs_pairwise rt hrt obs) j i hj hi h
    unfold Float64.le at hle
    rw [hle] at hlt
    exact Bool.false_ne_true hlt
  · subst h
    rw [Float64.lt_irrefl] at hlt
    exact Bool.false_ne_true hlt

/-- C9 amended, at the example input: Go (5400 s) stands before Python (900 s). -/
theorem larger_float_total_ranks_earlier_witness :
    reverseOrderRuntime.Conforms ∧
      (summarize reverseOrderRuntime exampleObservations).TopLangs[0]? = some "Go" ∧
      (summarize reverseOrderRuntime exampleObservations).TopLangs[1]? = some "Python" ∧
      Float64.lt (floatTotal exampleObservations "Python")
        (floatTotal exampleObservations "Go") = true ∧
      (0 : Nat) < 1 := by
  have h0 : (summarize reverseOrderRuntime exampleObservations).TopLangs[0]? = some "Go" := by
    decide!
  have h1 : (summarize reverseOrderRuntime exampleObservations).TopLangs[1]? =
      some "Python" := by
    decide!
  have hlt : Float64.lt (floatTotal exampleObservations "Python")
      (floatTotal exampleObservations "Go") = true := by
    decide!
  exact ⟨reverseOrderRuntime_conforms, h0, h1, hlt,
    larger_float_total_ranks_earlier reverseOrderRuntime reverseOrderRuntime_conforms
      exampleObservations 0 1 "Go" "Python" h0 h1 hlt⟩

/-- With three languages or more, `app.Action` posts the text that names the
first three of `TopLangs`, in their order, and ends as the post does. -/
theorem action_posts_first_three (rt : GoRuntime) (resp : DurationResponse)
    (postTweet : String → Except String Unit)
    (hlen : 3 ≤ (summarize rt resp.Data).TopLangs.length) :
    Action rt (.ok resp) postTweet =
      match postTweet (tweetText ((summarize rt resp.Data).TopLangs.take 3)
          (summarize rt resp.Data)) with
      | .error err => .failed err
      | .ok _ => .done := by
  simp [Action, GetTodaySummary, sliceTo, hlen]

/-- C10 fails on the code: when fewer than three distinct languages other than
"Other" were observed, `app.Action` ends in the run-time panic of the slice
expression `summary.TopLangs[:3]` and posts nothing. -/
theorem action_panics_below_three_languages (rt : GoRuntime) (hrt : rt.Conforms)
    (resp : DurationResponse) (postTweet : String → Except String Unit)
    (hfew : (observedLangs resp.Data).toFinset.card < 3) :
    Action rt (.ok resp) postTweet = .panicked "slice bounds out of range" := by
  have hlen := topLangs_length rt hrt resp.Data
  have hnot : ¬ 3 ≤ (summarize rt resp.Data).TopLangs.length := by omega
  simp [Action, GetTodaySummary, sliceTo, hnot]

/-- C10 at a day with a single language: the run panics. -/
theorem action_panics_below_three_languages_witness :
    insertionOrderRuntime.Conforms ∧
      (observedLangs (responseOf oneLanguageObservations).Data).toFinset.card < 3 ∧
      Action insertionOrderRuntime (.ok (responseOf oneLanguageObservations))
        (fun _ => .ok ()) = .panicked "slice bounds out of range" :=
  ⟨insertionOrderRuntime_conforms, by decide,
    action_panics_below_three_languages insertionOrderRuntime insertionOrderRuntime_conforms
      (responseOf oneLanguageObservations) (fun _ => .ok ()) (by decide)⟩

end TwDailyReporter
